import Mathlib

/-
  Verification development for the spaGO parameter / serialization /
  embedding-store core.

  Shallow embedding of:
    - pkg/ml/nn param (src/unnamed/part_002): Payload, param state and its
      operations (ReplaceValue, PropagateGrad, ZeroGrad, ApplyDelta,
      SetPayload, ClearPayload, ...), the ParamSerializer binary format;
    - pkg/ml/ag/fn/reshape.go: Reshape Forward / Backward;
    - pkg/nlp/embeddings/embeddings.go: Model (SetEmbedding, GetEmbedding,
      ClearUsedEmbeddings) and Processor.Encode.

  Numeric matrix entries (float64 in the source) are modeled as integers:
  every property below concerns structure, exact round-trips or exact sums,
  never rounding. A mat.Matrix value is rows, cols and row-major data.
  Fallible / fatally-failing Go code (panic, log.Fatal) is modeled with
  Option: none means the call does not return normally.
-/

namespace Spago

/-- Model of mat.Dense: immutable-shape 2D array, row-major data. -/
structure Mtx where
  rows : Nat
  cols : Nat
  data : List Int
deriving DecidableEq

/-- Well-formedness: the data length matches the declared dimensions
(always true of a real mat.Dense). -/
def Mtx.WF (m : Mtx) : Prop := m.data.length = m.rows * m.cols

instance (m : Mtx) : Decidable m.WF := by unfold Mtx.WF; infer_instance

/-- Modelled from the spec: pool acquisition returns zero-initialized
buffers (mat.GetEmptyDenseWorkspace is not under src/; section 4.1 and the
section 9 note require zero-initialization on every acquisition). -/
def zerosLike (m : Mtx) : Mtx :=
  { rows := m.rows, cols := m.cols, data := List.replicate (m.rows * m.cols) 0 }

/-- Modelled from the spec: mat.Matrix.AddInPlace, elementwise addition
into the receiver, which keeps its declared dimensions (section 4.1). -/
def addM (a b : Mtx) : Mtx :=
  { rows := a.rows, cols := a.cols, data := List.zipWith (· + ·) a.data b.data }

/-- Modelled from the spec: mat.Matrix.SubInPlace (section 4.1). -/
def subM (a b : Mtx) : Mtx :=
  { rows := a.rows, cols := a.cols, data := List.zipWith (· - ·) a.data b.data }

/-- Modelled from the spec: mat.Dense.Reshape fails (SizeMismatch) when
rows*cols differs from the element count, otherwise shares the data with
the new dimensions (section 4.1). -/
def reshapeM (m : Mtx) (r c : Nat) : Option Mtx :=
  if m.rows * m.cols = r * c then some { rows := r, cols := c, data := m.data }
  else none

/-- Payload: optimizer support data attached to a Param. -/
structure Payload where
  label : Int
  data : List Mtx
deriving DecidableEq

/-- NewEmptySupport: label zero, no data. -/
def emptySupport : Payload := { label := 0, data := [] }

/-! ## Binary serialization (ParamSerializer)

The byte stream is abstracted as a token stream: an int64 token models one
little-endian 64-bit integer (matrix dimensions and the payload header),
an elem token models one raw stored element. -/

/-- One token of the serialized stream. -/
inductive Tok where
  | int64 (n : Int)
  | elem (x : Int)
deriving DecidableEq

/-- Modelled from the spec: mat.MarshalBinaryTo writes the dimensions
followed by the row-major elements (section 4.5 layout item (a)). -/
def marshalMtx (m : Mtx) : List Tok :=
  Tok.int64 (m.rows : Int) :: Tok.int64 (m.cols : Int) :: m.data.map Tok.elem

/-- PayloadMarshalBinaryTo: header {Label, Size} then the data matrices in
order. On a nil Payload the Go code dereferences supp.Label and panics,
modeled as none. -/
def payloadMarshal (supp : Option Payload) : Option (List Tok) :=
  match supp with
  | none => none
  | some s =>
      some (Tok.int64 s.label :: Tok.int64 (s.data.length : Int)
        :: (s.data.map marshalMtx).flatten)

/-- ParamSerializer.Serialize: the Value then the Payload. -/
def paramSerialize (value : Mtx) (payload : Option Payload) : Option (List Tok) :=
  (payloadMarshal payload).map (fun ps => marshalMtx value ++ ps)

/-- Read n stored elements from the stream (truncation fails). -/
def takeElems : Nat → List Tok → Option (List Int × List Tok)
  | 0, ts => some ([], ts)
  | n + 1, Tok.elem x :: ts =>
      match takeElems n ts with
      | some (xs, rest) => some (x :: xs, rest)
      | none => none
  | _ + 1, _ => none

/-- Modelled from the spec: mat.NewUnmarshalBinaryFrom reads the
dimensions then exactly rows*cols elements, failing on truncated input. -/
def unmarshalMtx : List Tok → Option (Mtx × List Tok)
  | Tok.int64 r :: Tok.int64 c :: ts =>
      match takeElems (r.toNat * c.toNat) ts with
      | some (xs, rest) =>
          some ({ rows := r.toNat, cols := c.toNat, data := xs }, rest)
      | none => none
  | _ => none

/-- Modelled from the spec: mat.NewUnmarshalBinarySlice reads a fixed
number of matrices in sequence. -/
def takeMtxs : Nat → List Tok → Option (List Mtx × List Tok)
  | 0, ts => some ([], ts)
  | n + 1, ts =>
      match unmarshalMtx ts with
      | some (m, ts1) =>
          match takeMtxs n ts1 with
          | some (ms, rest) => some (m :: ms, rest)
          | none => none
      | none => none

/-- NewPayloadUnmarshalBinaryFrom: header then Size matrices. -/
def payloadUnmarshal : List Tok → Option (Payload × List Tok)
  | Tok.int64 lab :: Tok.int64 sz :: ts =>
      match takeMtxs sz.toNat ts with
      | some (ms, rest) => some ({ label := lab, data := ms }, rest)
      | none => none
  | _ => none

/-- ParamSerializer.Deserialize: Value then Payload; the deserialized
Payload is always present (never nil). -/
def paramDeserialize (ts : List Tok) : Option (Mtx × Payload × List Tok) :=
  match unmarshalMtx ts with
  | none => none
  | some (v, ts1) =>
      match payloadUnmarshal ts1 with
      | none => none
      | some (pl, rest) => some (v, pl, rest)

/-! ## Param state and operations (src/unnamed/part_002) -/

/-- ParamsType enumeration. -/
inductive ParamsType where
  | weights
  | biases
  | undefined
deriving DecidableEq

/-- The param struct: mutable state of one parameter. The backed flag
models storage != nil; the storage contents themselves are modeled in the
embedding layer. -/
structure ParamState where
  name : String
  pType : ParamsType
  value : Mtx
  grad : Option Mtx
  payload : Option Payload
  hasGrad : Bool
  requiresGrad : Bool
  backed : Bool
deriving DecidableEq

/-- NewParam with default options: requiresGrad true, everything else
lazily initialized. -/
def NewParam (value : Mtx) : ParamState :=
  { name := "", pType := ParamsType.undefined, value := value, grad := none,
    payload := none, hasGrad := false, requiresGrad := true, backed := false }

/-- updateStorage: re-serialize the param and Put it; serialization of a
nil payload panics and a Put error is log.Fatal, both modeled as none.
The written bytes are returned for the storage layer. -/
def updateStorage (p : ParamState) : Option (List Tok) :=
  paramSerialize p.value p.payload

/-- ReplaceValue: swaps the value, clears the payload (the support
structure), and if backed writes through to storage. The gradient fields
are not touched. -/
def replaceValue (p : ParamState) (v : Mtx) : Option ParamState :=
  let p1 := { p with value := v, payload := none }
  if p.backed then
    match updateStorage p1 with
    | some _ => some p1
    | none => none
  else some p1

/-- PropagateGrad: no-op unless requiresGrad; lazily allocates a zero
workspace of the dimensions of the value, then adds in place. -/
def propagateGrad (p : ParamState) (g : Mtx) : ParamState :=
  if p.requiresGrad then
    match p.grad with
    | none => { p with grad := some (addM (zerosLike p.value) g), hasGrad := true }
    | some gr => { p with grad := some (addM gr g), hasGrad := true }
  else p

/-- A sequence of PropagateGrad calls. -/
def runGrads (p : ParamState) (gs : List Mtx) : ParamState :=
  gs.foldl propagateGrad p

/-- ZeroGrad: early return when the gradient is already nil, otherwise
releases it and resets the flag. -/
def zeroGrad (p : ParamState) : ParamState :=
  match p.grad with
  | none => p
  | some _ => { p with grad := none, hasGrad := false }

/-- ApplyDelta: subtracts in place, then writes through if backed. -/
def applyDelta (p : ParamState) (d : Mtx) : Option ParamState :=
  let p1 := { p with value := subM p.value d }
  if p.backed then
    match updateStorage p1 with
    | some _ => some p1
    | none => none
  else some p1

/-- SetPayload, with write-through if backed. -/
def setPayload (p : ParamState) (pl : Payload) : Option ParamState :=
  let p1 := { p with payload := some pl }
  if p.backed then
    match updateStorage p1 with
    | some _ => some p1
    | none => none
  else some p1

/-- ClearPayload, with write-through if backed. -/
def clearPayload (p : ParamState) : Option ParamState :=
  let p1 := { p with payload := none }
  if p.backed then
    match updateStorage p1 with
    | some _ => some p1
    | none => none
  else some p1

/-- SetRequiresGrad. -/
def setRequiresGrad (p : ParamState) (b : Bool) : ParamState :=
  { p with requiresGrad := b }

/-- SetName. -/
def setName (p : ParamState) (s : String) : ParamState :=
  { p with name := s }

/-- SetType. -/
def setType (p : ParamState) (t : ParamsType) : ParamState :=
  { p with pType := t }

/-! ## Embedding store (pkg/nlp/embeddings/embeddings.go) -/

/-- strings.ToLower, modeled characterwise. -/
def lowerStr (s : String) : String := String.mk (s.data.map Char.toLower)

/-- Association-list lookup: first binding for the key wins. Models both
the Go map of used embeddings and the key-value backing store (kvdb);
insertion is modeled by consing, so the newest binding shadows older
ones. -/
def alookup {α : Type} (k : String) : List (String × α) → Option α
  | [] => none
  | (k1, v) :: rest => if k1 = k then some v else alookup k rest

/-- The embeddings Model: configuration, backing store contents (as
serialized token streams) and the in-memory working set of used
embeddings. -/
structure EmbModel where
  readOnly : Bool
  useZero : Bool
  storage : List (String × List Tok)
  used : List (String × ParamState)
deriving DecidableEq

/-- A new Model over an empty backing store. -/
def newEmbModel (readOnly useZero : Bool) : EmbModel :=
  { readOnly := readOnly, useZero := useZero, storage := [], used := [] }

/-- SetEmbedding: log.Fatal in read-only mode; otherwise builds a fresh
Param (requiresGrad true) with an empty support Payload, serializes it and
Puts it into the backing store under the raw word. The working set is not
touched. -/
def setEmbedding (m : EmbModel) (word : String) (v : Mtx) : Option EmbModel :=
  if m.readOnly then none
  else
    let fresh := { NewParam v with payload := some emptySupport }
    match paramSerialize fresh.value fresh.payload with
    | none => none
    | some bs => some { m with storage := (word, bs) :: m.storage }

/-- The Param materialized from storage: NewParam(nil, SetStorage) then
Deserialize assigns value and payload; gradient tracking is forced off in
read-only mode; the word becomes the name. -/
def matParam (m : EmbModel) (word : String) (v : Mtx) (pl : Payload) : ParamState :=
  { name := word, pType := ParamsType.undefined, value := v, grad := none,
    payload := some pl, hasGrad := false, requiresGrad := !m.readOnly,
    backed := true }

/-- Model.getEmbedding (exact casing): working set first, then the
backing store; a storage hit is deserialized (log.Fatal on a decoding
error, modeled as none) and the materialized Param is cached. -/
def getEmbeddingStep (m : EmbModel) (word : String) :
    Option (Option ParamState × EmbModel) :=
  match alookup word m.used with
  | some p => some (some p, m)
  | none =>
      match alookup word m.storage with
      | none => some (none, m)
      | some bs =>
          match paramDeserialize bs with
          | none => none
          | some (v, pl, _) =>
              some (some (matParam m word v pl),
                { m with used := (word, matParam m word v pl) :: m.used })

/-- Model.GetEmbedding: exact match first, then the lower-cased word;
nil when both miss. -/
def getEmbedding (m : EmbModel) (word : String) :
    Option (Option ParamState × EmbModel) :=
  match getEmbeddingStep m word with
  | none => none
  | some (some p, m1) => some (some p, m1)
  | some (none, m1) => getEmbeddingStep m1 (lowerStr word)

/-- ClearUsedEmbeddings: empties the working set only. -/
def clearUsedEmbeddings (m : EmbModel) : EmbModel :=
  { m with used := [] }

/-- One externally driven operation on an embeddings Model. -/
inductive EmbOp where
  | set (w : String) (v : Mtx)
  | get (w : String)
  | clear
deriving DecidableEq

/-- Run one operation (none = fatal). -/
def applyEmbOp (m : EmbModel) : EmbOp → Option EmbModel
  | EmbOp.set w v => setEmbedding m w v
  | EmbOp.get w =>
      match getEmbedding m w with
      | none => none
      | some (_, m1) => some m1
  | EmbOp.clear => some (clearUsedEmbeddings m)

/-- Run a trace of operations. -/
def runEmb (m : EmbModel) : List EmbOp → Option EmbModel
  | [] => some m
  | op :: ops =>
      match applyEmbOp m op with
      | none => none
      | some m1 => runEmb m1 ops

/-- Whether the trace sets the given word to the given value at some
point. -/
def setsTo (ops : List EmbOp) (w : String) (v : Mtx) : Prop :=
  EmbOp.set w v ∈ ops

/-- Whether the trace ever sets the given word. -/
def wasSet (ops : List EmbOp) (w : String) : Prop :=
  ∃ v, EmbOp.set w v ∈ ops

instance (ops : List EmbOp) (w : String) (v : Mtx) : Decidable (setsTo ops w v) := by
  unfold setsTo; infer_instance

/-! ## Processor.Encode (pkg/nlp/embeddings/embeddings.go)

Graph nodes are identified by the order of their creation: NewWrap on a
found Param returns a fresh identifier and bumps the counter, so two nodes
are the identical instance exactly when their identifiers coincide. An
absent embedding encodes as the zero-embedding node of the Processor,
which can itself be absent (nil node). -/

/-- Processor.getEmbedding: a found Param is wrapped as a fresh graph
node; a miss yields the shared zero-embedding node (possibly nil). -/
def procGetEmbedding (m : EmbModel) (g : Nat) (zeroEmb : Option Nat)
    (w : String) : Option (Option Nat × EmbModel × Nat) :=
  match getEmbedding m w with
  | none => none
  | some (none, m1) => some (zeroEmb, m1, g)
  | some (some _, m1) => some (some g, m1, g + 1)

/-- Processor.Encode over the remaining words, threading the model, the
node counter and the per-call cache; the final component counts the
underlying embedding lookups performed. -/
def encodeAux (m : EmbModel) (g : Nat) (zeroEmb : Option Nat)
    (cache : List (String × Option Nat)) :
    List String →
    Option (List (Option Nat) × EmbModel × Nat × List (String × Option Nat) × Nat)
  | [] => some ([], m, g, cache, 0)
  | w :: ws =>
      match alookup w cache with
      | some item =>
          match encodeAux m g zeroEmb cache ws with
          | some (enc, m1, g1, c1, cnt) => some (item :: enc, m1, g1, c1, cnt)
          | none => none
      | none =>
          match procGetEmbedding m g zeroEmb w with
          | none => none
          | some (nd, m1, g1) =>
              match encodeAux m1 g1 zeroEmb ((w, nd) :: cache) ws with
              | some (enc, m2, g2, c2, cnt) => some (nd :: enc, m2, g2, c2, cnt + 1)
              | none => none

/-- Processor.Encode: fresh per-call cache. -/
def encode (m : EmbModel) (g : Nat) (zeroEmb : Option Nat) (words : List String) :
    Option (List (Option Nat) × EmbModel × Nat × List (String × Option Nat) × Nat) :=
  encodeAux m g zeroEmb [] words

/-! ## Reshape operation (pkg/ml/ag/fn/reshape.go) -/

/-- The Reshape function node: target dimensions and its operand, of
which only the current value and the requiresGrad flag matter here. -/
structure ReshapeFn where
  rows : Nat
  cols : Nat
  xValue : Mtx
  xRequiresGrad : Bool
deriving DecidableEq

/-- Mtx.Size in the source: rows times cols. -/
def Mtx.size (m : Mtx) : Nat := m.rows * m.cols

/-- Reshape.Forward: panics (ShapeError) unless the operand size matches
rows*cols, otherwise reshapes the operand value. -/
def reshapeForward (f : ReshapeFn) : Option Mtx :=
  if f.xValue.size = f.rows * f.cols then reshapeM f.xValue f.rows f.cols
  else none

/-- Errors a Backward call can raise. -/
inductive BErr where
  | shapeErr
  | sizeErr
deriving DecidableEq

instance {ε α : Type} [DecidableEq ε] [DecidableEq α] : DecidableEq (Except ε α) :=
  fun x y =>
    match x, y with
    | Except.ok a, Except.ok b =>
        if h : a = b then isTrue (by rw [h])
        else isFalse (fun hh => h (by injection hh))
    | Except.error a, Except.error b =>
        if h : a = b then isTrue (by rw [h])
        else isFalse (fun hh => h (by injection hh))
    | Except.ok _, Except.error _ => isFalse (fun hh => Except.noConfusion hh)
    | Except.error _, Except.ok _ => isFalse (fun hh => Except.noConfusion hh)

/-- Reshape.Backward as written in the source: the guard panics only when
the gradient columns differ from cols AND its rows differ from rows; when
the operand requires a gradient, gy is reshaped to the operand dimensions
(SizeMismatch when the element counts differ) and propagated. Returns the
propagated gradient, or none when the operand does not require one. -/
def reshapeBackward (f : ReshapeFn) (gy : Mtx) : Except BErr (Option Mtx) :=
  if gy.cols ≠ f.cols ∧ gy.rows ≠ f.rows then Except.error BErr.shapeErr
  else if f.xRequiresGrad then
    match reshapeM gy f.xValue.rows f.xValue.cols with
    | none => Except.error BErr.sizeErr
    | some gx => Except.ok (some gx)
  else Except.ok none

/-! ## Lock discipline of the param operations (src/unnamed/part_002)

Each operation is mapped to the sequence of lock, unlock, read and write
events it performs on the triple value / grad / payload, in source order.
Reads of scalar flags (requiresGrad, hasGrad) are not events on the
triple. -/

/-- The guarded triple of param fields. -/
inductive Fld where
  | value
  | grad
  | payload
deriving DecidableEq

/-- One event of a param operation. -/
inductive PEv where
  | lock
  | unlock
  | rd (f : Fld)
  | wr (f : Fld)
deriving DecidableEq

/-- Value(): plain read, no locking (source lines 188-190). -/
def valueTrace : List PEv := [PEv.rd Fld.value]

/-- Grad(): plain read, no locking (source lines 211-213). -/
def gradTrace : List PEv := [PEv.rd Fld.grad]

/-- Payload(): read under the lock. -/
def payloadTrace : List PEv := [PEv.lock, PEv.rd Fld.payload, PEv.unlock]

/-- ReplaceValue: writes under the lock; the backed write-through
re-reads value and payload for serialization, still under the lock. -/
def replaceValueTrace (backed : Bool) : List PEv :=
  [PEv.lock, PEv.wr Fld.value, PEv.wr Fld.payload]
    ++ (if backed then [PEv.rd Fld.value, PEv.rd Fld.payload] else [])
    ++ [PEv.unlock]

/-- PropagateGrad: the requiresGrad pre-check is not a triple access;
with requiresGrad set, the gradient is checked, allocated and accumulated
under the lock. -/
def propagateGradTrace (rg : Bool) : List PEv :=
  if rg then [PEv.lock, PEv.rd Fld.grad, PEv.wr Fld.grad, PEv.unlock] else []

/-- ZeroGrad: the nil check reads the gradient BEFORE taking the lock;
the clearing itself happens under it. -/
def zeroGradTrace (gradNil : Bool) : List PEv :=
  PEv.rd Fld.grad
    :: (if gradNil then []
        else [PEv.lock, PEv.rd Fld.grad, PEv.wr Fld.grad, PEv.unlock])

/-- ApplyDelta: read-modify-write of the value under the lock, plus the
backed write-through. -/
def applyDeltaTrace (backed : Bool) : List PEv :=
  [PEv.lock, PEv.rd Fld.value, PEv.wr Fld.value]
    ++ (if backed then [PEv.rd Fld.value, PEv.rd Fld.payload] else [])
    ++ [PEv.unlock]

/-- SetPayload: write under the lock, plus the backed write-through. -/
def setPayloadTrace (backed : Bool) : List PEv :=
  [PEv.lock, PEv.wr Fld.payload]
    ++ (if backed then [PEv.rd Fld.value, PEv.rd Fld.payload] else [])
    ++ [PEv.unlock]

/-- ClearPayload: write under the lock, plus the backed write-through. -/
def clearPayloadTrace (backed : Bool) : List PEv :=
  [PEv.lock, PEv.wr Fld.payload]
    ++ (if backed then [PEv.rd Fld.value, PEv.rd Fld.payload] else [])
    ++ [PEv.unlock]

/-- Every read and write of the trace happens while the lock is held. -/
def allUnderLock : Bool → List PEv → Bool
  | _, [] => true
  | _, PEv.lock :: es => allUnderLock true es
  | _, PEv.unlock :: es => allUnderLock false es
  | held, PEv.rd _ :: es => held && allUnderLock held es
  | held, PEv.wr _ :: es => held && allUnderLock held es

/-! ## Serialization round-trip lemmas -/

/-- The byte stream SetEmbedding writes for a value: the value followed by
the empty-support header {0, 0}. -/
def freshBytes (v : Mtx) : List Tok :=
  marshalMtx v ++ [Tok.int64 0, Tok.int64 0]

theorem takeElems_append (xs : List Int) (rest : List Tok) :
    takeElems xs.length (xs.map Tok.elem ++ rest) = some (xs, rest) := by
  induction xs with
  | nil => rfl
  | cons x xs ih => simp [takeElems, ih]

theorem unmarshalMtx_marshalMtx (m : Mtx) (h : m.WF) (rest : List Tok) :
    unmarshalMtx (marshalMtx m ++ rest) = some (m, rest) := by
  have hlen : m.rows * m.cols = m.data.length := h.symm
  simp only [marshalMtx, List.cons_append, unmarshalMtx, Int.toNat_ofNat]
  rw [hlen, takeElems_append]

theorem takeMtxs_marshal (ms : List Mtx) (h : ∀ x ∈ ms, x.WF) (rest : List Tok) :
    takeMtxs ms.length ((ms.map marshalMtx).flatten ++ rest) = some (ms, rest) := by
  induction ms with
  | nil => rfl
  | cons x xs ih =>
      have hxs := ih (fun y hy => h y (List.mem_cons_of_mem x hy))
      simp only [List.map_cons, List.flatten_cons, List.append_assoc,
        List.length_cons, takeMtxs]
      rw [unmarshalMtx_marshalMtx x (h x (List.mem_cons_self x xs))]
      simp only [hxs]

theorem payloadUnmarshal_marshal (pl : Payload) (h : ∀ x ∈ pl.data, x.WF)
    (rest : List Tok) :
    payloadUnmarshal (Tok.int64 pl.label
      :: Tok.int64 (pl.data.length : Int)
      :: ((pl.data.map marshalMtx).flatten ++ rest)) = some (pl, rest) := by
  simp only [payloadUnmarshal, Int.toNat_ofNat]
  rw [takeMtxs_marshal pl.data h rest]

theorem paramDeserialize_serialize (v : Mtx) (pl : Payload) (hv : v.WF)
    (hpl : ∀ x ∈ pl.data, x.WF) :
    ∃ ts, paramSerialize v (some pl) = some ts ∧
      paramDeserialize ts = some (v, pl, []) := by
  refine ⟨_, rfl, ?_⟩
  show paramDeserialize (marshalMtx v ++ (Tok.int64 pl.label
    :: Tok.int64 (pl.data.length : Int) :: (pl.data.map marshalMtx).flatten)) = _
  unfold paramDeserialize
  rw [show (Tok.int64 pl.label :: Tok.int64 (pl.data.length : Int)
        :: (pl.data.map marshalMtx).flatten)
      = (Tok.int64 pl.label :: Tok.int64 (pl.data.length : Int)
        :: ((pl.data.map marshalMtx).flatten ++ [])) by simp]
  rw [unmarshalMtx_marshalMtx v hv]
  simp only [payloadUnmarshal_marshal pl hpl []]

theorem paramDeserialize_freshBytes (v : Mtx) (hv : v.WF) :
    paramDeserialize (freshBytes v) = some (v, emptySupport, []) := by
  unfold freshBytes paramDeserialize
  rw [unmarshalMtx_marshalMtx v hv]
  rfl

theorem paramSerialize_empty (v : Mtx) :
    paramSerialize v (some emptySupport) = some (freshBytes v) := by
  simp [paramSerialize, payloadMarshal, emptySupport, freshBytes]

/-! ## C1 -/

/-- Concrete parameter with an accumulated gradient. -/
def pC1 : ParamState :=
  { NewParam { rows := 1, cols := 1, data := [5] } with
    grad := some { rows := 1, cols := 1, data := [2] }, hasGrad := true }

/-- The value passed to ReplaceValue in the C1 counterexample. -/
def vC1 : Mtx := { rows := 1, cols := 1, data := [7] }

/-- C1 counterexample: ReplaceValue does not clear the accumulated
Gradient (it stays exactly as it was, non-nil), and on a storage-backed
parameter the synchronous write-through does not complete at all: the
payload has just been set to nil and serializing a nil payload does not
return normally. -/
theorem c1_counterexample :
    replaceValue pC1 vC1
      = some { pC1 with value := vC1, payload := none } ∧
    ({ pC1 with value := vC1, payload := none } : ParamState).grad ≠ none ∧
    replaceValue { pC1 with backed := true } vC1 = none := by decide

/-- C1 (amended): ReplaceValue swaps the Value and clears the Payload but
leaves the Gradient (and the has-gradient flag) untouched; when the
parameter is backed by storage, the attempted synchronous write-through
fails fatally, because the Payload was just cleared to nil and a nil
Payload cannot be serialized. -/
theorem c1_replaceValue (p : ParamState) (v : Mtx) :
    (p.backed = false →
      replaceValue p v = some { p with value := v, payload := none }) ∧
    (p.backed = true → replaceValue p v = none) := by
  constructor
  · intro h
    simp [replaceValue, h]
  · intro h
    simp [replaceValue, h, updateStorage, paramSerialize, payloadMarshal]

/-- C1 witness. -/
theorem c1_replaceValue_witness :
    replaceValue pC1 vC1 = some { pC1 with value := vC1, payload := none } ∧
    replaceValue { pC1 with backed := true } vC1 = none :=
  ⟨(c1_replaceValue pC1 vC1).1 rfl,
   (c1_replaceValue { pC1 with backed := true } vC1).2 rfl⟩

/-! ## C2 -/

/-- Concrete value for the C2 counterexample. -/
def vC2 : Mtx := { rows := 1, cols := 2, data := [3, 4] }

/-- C2 counterexample: a Parameter with an absent (nil) Payload does not
serialize as its Value followed by a {0, 0} header: serialization does not
return normally at all (the Go code dereferences the nil Payload). -/
theorem c2_counterexample : paramSerialize vC2 none = none := by decide

/-- C2 (amended): for every Parameter whose Value is set and whose Payload
is present, serializing and deserializing yields a Value and Payload
element-wise equal to the original with nothing left over; an EMPTY
Payload (label 0, no data) — which SetEmbedding attaches precisely so that
serialization is possible — serializes as the Value followed by a {0, 0}
header with no further values; an absent Payload fails to serialize. -/
theorem c2_serializeRoundTrip :
    (∀ (v : Mtx) (pl : Payload), v.WF → (∀ x ∈ pl.data, x.WF) →
      ∃ ts, paramSerialize v (some pl) = some ts ∧
        paramDeserialize ts = some (v, pl, [])) ∧
    (∀ v : Mtx,
      paramSerialize v (some emptySupport)
        = some (marshalMtx v ++ [Tok.int64 0, Tok.int64 0])) ∧
    (∀ v : Mtx, paramSerialize v none = none) := by
  refine ⟨fun v pl hv hpl => paramDeserialize_serialize v pl hv hpl, ?_, ?_⟩
  · intro v
    exact paramSerialize_empty v
  · intro v
    rfl

/-- Concrete payload with one matrix, for the C2 witness. -/
def plC2 : Payload :=
  { label := 3, data := [{ rows := 2, cols := 1, data := [8, 9] }] }

/-- C2 witness. -/
theorem c2_serializeRoundTrip_witness :
    ∃ ts, paramSerialize vC2 (some plC2) = some ts ∧
      paramDeserialize ts = some (vC2, plC2, []) :=
  c2_serializeRoundTrip.1 vC2 plC2 (by decide) (by decide)

/-! ## C3 -/

/-- Reshape node configured as 2 x 3 over a 3 x 2 operand that does not
require a gradient. -/
def fC3 : ReshapeFn :=
  { rows := 2, cols := 3,
    xValue := { rows := 3, cols := 2, data := [1, 2, 3, 4, 5, 6] },
    xRequiresGrad := false }

/-- Gradient whose rows match the configured rows but whose columns
differ. -/
def gyC3 : Mtx := { rows := 2, cols := 2, data := [9, 9, 9, 9] }

/-- C3: the source guard panics only when the columns differ AND the rows
differ, so a gradient agreeing in one dimension slips through: Forward
caches a 2 x 3 output, gyC3 is 2 x 2 (columns differ from the cached
shape), yet Backward raises no ShapeError — it returns normally when the
operand requires no gradient, and with a gradient-requiring operand it
fails later with a SizeMismatch from Reshape instead of the required
ShapeError. -/
theorem c3_reshapeBackward_bug :
    reshapeForward fC3
      = some { rows := 2, cols := 3, data := [1, 2, 3, 4, 5, 6] } ∧
    gyC3.rows = fC3.rows ∧ gyC3.cols ≠ fC3.cols ∧
    reshapeBackward fC3 gyC3 = Except.ok none ∧
    reshapeBackward { fC3 with xRequiresGrad := true } gyC3
      = Except.error BErr.sizeErr := by decide

/-! ## C8 -/

/-- C8 counterexample: the snapshot reads Value() and Grad() access the
guarded triple without the per-Parameter lock being held. -/
theorem c8_counterexample :
    allUnderLock false valueTrace = false ∧
    allUnderLock false gradTrace = false := by decide

/-- C8 (amended): the mutating operations (ReplaceValue, PropagateGrad
when it accumulates, ApplyDelta, SetPayload, ClearPayload) and the
Payload() read perform all their accesses to the Value/Gradient/Payload
triple under the per-Parameter lock, but Value() and Grad() read without
acquiring it, and ZeroGrad performs its nil pre-check read of the
gradient before taking the lock. -/
theorem c8_lockDiscipline :
    (∀ b, allUnderLock false (replaceValueTrace b) = true) ∧
    allUnderLock false (propagateGradTrace true) = true ∧
    (∀ b, allUnderLock false (applyDeltaTrace b) = true) ∧
    (∀ b, allUnderLock false (setPayloadTrace b) = true) ∧
    (∀ b, allUnderLock false (clearPayloadTrace b) = true) ∧
    allUnderLock false payloadTrace = true ∧
    allUnderLock false valueTrace = false ∧
    allUnderLock false gradTrace = false ∧
    (∀ b, allUnderLock false (zeroGradTrace b) = false) := by decide

/-! ## C9 -/

/-- One operation on a param. -/
inductive POp where
  | replace (v : Mtx)
  | propagate (g : Mtx)
  | zero
  | delta (d : Mtx)
  | setPl (pl : Payload)
  | clearPl
  | setReq (b : Bool)
  | setNm (s : String)
  | setTy (t : ParamsType)
deriving DecidableEq

/-- Run one param operation (none = fatal). -/
def applyPOp (p : ParamState) : POp → Option ParamState
  | POp.replace v => replaceValue p v
  | POp.propagate g => some (propagateGrad p g)
  | POp.zero => some (zeroGrad p)
  | POp.delta d => applyDelta p d
  | POp.setPl pl => setPayload p pl
  | POp.clearPl => clearPayload p
  | POp.setReq b => some (setRequiresGrad p b)
  | POp.setNm s => some (setName p s)
  | POp.setTy t => some (setType p t)

/-- Run a sequence of param operations. -/
def runPOps (p : ParamState) : List POp → Option ParamState
  | [] => some p
  | op :: ops =>
      match applyPOp p op with
      | none => none
      | some p1 => runPOps p1 ops

/-- The has-gradient flag is set exactly when a gradient matrix is
present. -/
def GradInv (p : ParamState) : Prop := p.hasGrad = true ↔ p.grad ≠ none

instance (p : ParamState) : Decidable (GradInv p) := by
  unfold GradInv; infer_instance

theorem gradInv_step (p : ParamState) (op : POp) (q : ParamState)
    (hInv : GradInv p) (h : applyPOp p op = some q) : GradInv q := by
  cases op with
  | replace v =>
      simp only [applyPOp, replaceValue] at h
      by_cases hb : p.backed
      · simp [hb, updateStorage, paramSerialize, payloadMarshal] at h
      · simp [hb] at h
        rw [← h]
        exact hInv
  | propagate g =>
      simp only [applyPOp, Option.some.injEq] at h
      rw [← h]
      unfold propagateGrad
      cases hr : p.requiresGrad with
      | false => simpa using hInv
      | true =>
          cases hg : p.grad with
          | none => simp [GradInv]
          | some gr => simp [GradInv]
  | zero =>
      simp only [applyPOp, zeroGrad, Option.some.injEq] at h
      cases hg : p.grad with
      | none =>
          rw [hg] at h
          rw [← h]
          constructor
          · intro hh; exact absurd (hInv.mp hh) (by simp [hg])
          · intro hh; exact absurd hg hh
      | some gr => rw [hg] at h; rw [← h]; simp [GradInv]
  | delta d =>
      simp only [applyPOp, applyDelta] at h
      split at h
      · split at h
        · simp only [Option.some.injEq] at h; rw [← h]; exact hInv
        · simp at h
      · simp only [Option.some.injEq] at h; rw [← h]; exact hInv
  | setPl pl =>
      simp only [applyPOp, setPayload] at h
      split at h
      · split at h
        · simp only [Option.some.injEq] at h; rw [← h]; exact hInv
        · simp at h
      · simp only [Option.some.injEq] at h; rw [← h]; exact hInv
  | clearPl =>
      simp only [applyPOp, clearPayload] at h
      by_cases hb : p.backed
      · simp [hb, updateStorage, paramSerialize, payloadMarshal] at h
      · simp [hb] at h; rw [← h]; exact hInv
  | setReq b =>
      simp only [applyPOp, setRequiresGrad, Option.some.injEq] at h
      rw [← h]; exact hInv
  | setNm s =>
      simp only [applyPOp, setName, Option.some.injEq] at h
      rw [← h]; exact hInv
  | setTy t =>
      simp only [applyPOp, setType, Option.some.injEq] at h
      rw [← h]; exact hInv

/-- C9: HasGrad is true exactly when Grad is non-nil. A fresh param
starts with the pair (false, nil); PropagateGrad under requiresGrad sets
both; ZeroGrad resets both; and every operation of the param interface
preserves the equivalence along any sequence of calls. -/
theorem c9_hasGrad_invariant :
    (∀ v, (NewParam v).hasGrad = false ∧ (NewParam v).grad = none
      ∧ GradInv (NewParam v)) ∧
    (∀ p g, p.requiresGrad = true →
      (propagateGrad p g).hasGrad = true ∧ (propagateGrad p g).grad ≠ none) ∧
    (∀ p, GradInv p → (zeroGrad p).grad = none ∧ (zeroGrad p).hasGrad = false) ∧
    (∀ p ops q, GradInv p → runPOps p ops = some q → GradInv q) := by
  refine ⟨?_, ?_, ?_, ?_⟩
  · intro v
    exact ⟨rfl, rfl, by simp [GradInv, NewParam]⟩
  · intro p g hr
    unfold propagateGrad
    rw [hr]
    cases p.grad <;> simp
  · intro p hInv
    unfold zeroGrad
    cases hg : p.grad with
    | none =>
        refine ⟨hg, ?_⟩
        by_cases hh : p.hasGrad = true
        · exact absurd (hInv.mp hh) (by simp [hg])
        · simpa using hh
    | some gr => exact ⟨rfl, rfl⟩
  · intro p ops
    induction ops generalizing p with
    | nil =>
        intro q hInv h
        simp only [runPOps, Option.some.injEq] at h
        rw [← h]; exact hInv
    | cons op ops ih =>
        intro q hInv h
        simp only [runPOps] at h
        cases ha : applyPOp p op with
        | none => rw [ha] at h; exact absurd h (by simp)
        | some p1 =>
            rw [ha] at h
            exact ih p1 q (gradInv_step p op p1 hInv ha) h

/-- Concrete param and op sequence for the C9 witness. -/
def pC9 : ParamState := NewParam { rows := 1, cols := 2, data := [1, 2] }

/-- Propagate, replace, zero, propagate again. -/
def opsC9 : List POp :=
  [POp.propagate { rows := 1, cols := 2, data := [3, 4] },
   POp.replace { rows := 1, cols := 2, data := [5, 6] },
   POp.zero,
   POp.propagate { rows := 1, cols := 2, data := [7, 8] }]

/-- C9 witness. -/
theorem c9_hasGrad_invariant_witness :
    pC9.requiresGrad = true ∧
    ((propagateGrad pC9 { rows := 1, cols := 2, data := [3, 4] }).hasGrad = true ∧
      (propagateGrad pC9 { rows := 1, cols := 2, data := [3, 4] }).grad ≠ none) ∧
    ∀ q, runPOps pC9 opsC9 = some q → GradInv q :=
  ⟨rfl,
   c9_hasGrad_invariant.2.1 pC9 _ rfl,
   fun q h => c9_hasGrad_invariant.2.2.2 pC9 opsC9 q (by decide) h⟩

/-! ## C4 -/

theorem zipAdd_getD (a b : List Int) (i : Nat) (ha : i < a.length)
    (hb : i < b.length) :
    (List.zipWith (· + ·) a b).getD i 0 = a.getD i 0 + b.getD i 0 := by
  induction a generalizing b i with
  | nil => simp at ha
  | cons x xs ih =>
      cases b with
      | nil => simp at hb
      | cons y ys =>
          cases i with
          | zero => simp
          | succ n =>
              simp only [List.zipWith_cons_cons, List.getD_cons_succ]
              exact ih ys n (by simpa using ha) (by simpa using hb)

theorem zipAdd_swap (x a b : List Int) :
    List.zipWith (· + ·) (List.zipWith (· + ·) x a) b
      = List.zipWith (· + ·) (List.zipWith (· + ·) x b) a := by
  induction x generalizing a b with
  | nil => simp
  | cons h t ih =>
      cases a with
      | nil => simp
      | cons ha ta =>
          cases b with
          | nil => simp
          | cons hb tb =>
              simp only [List.zipWith_cons_cons]
              refine congrArg₂ List.cons (by omega) (ih ta tb)

theorem addM_swap (x a b : Mtx) : addM (addM x a) b = addM (addM x b) a := by
  unfold addM
  simp only [Mtx.mk.injEq, true_and]
  exact zipAdd_swap x.data a.data b.data

theorem foldl_addM_perm {gs gs1 : List Mtx} (h : gs.Perm gs1) (acc : Mtx) :
    gs.foldl addM acc = gs1.foldl addM acc := by
  induction h generalizing acc with
  | nil => rfl
  | cons x _ ih => simp only [List.foldl_cons]; exact ih _
  | swap x y l => simp only [List.foldl_cons, addM_swap]
  | trans _ _ ih1 ih2 => rw [ih1, ih2]

theorem addM_rows (a b : Mtx) : (addM a b).rows = a.rows := rfl

theorem foldl_addM_dims (gs : List Mtx) (acc : Mtx) :
    (gs.foldl addM acc).rows = acc.rows ∧ (gs.foldl addM acc).cols = acc.cols := by
  induction gs generalizing acc with
  | nil => exact ⟨rfl, rfl⟩
  | cons g gs ih => simp only [List.foldl_cons]; exact ih (addM acc g)

theorem foldl_addM_getD (gs : List Mtx) (acc : Mtx) (i : Nat)
    (hacc : i < acc.data.length)
    (hlen : ∀ g ∈ gs, g.data.length = acc.data.length) :
    (gs.foldl addM acc).data.getD i 0
      = acc.data.getD i 0 + (gs.map (fun g => g.data.getD i 0)).sum := by
  induction gs generalizing acc with
  | nil => simp
  | cons g gs ih =>
      have hg : g.data.length = acc.data.length := hlen g (List.mem_cons_self g gs)
      have h1 : (addM acc g).data.length = acc.data.length := by
        simp [addM, List.length_zipWith, hg]
      simp only [List.foldl_cons, List.map_cons, List.sum_cons]
      rw [ih (addM acc g) (h1 ▸ hacc)
        (fun x hx => (hlen x (List.mem_cons_of_mem g hx)).trans h1.symm)]
      have h2 : (addM acc g).data.getD i 0 = acc.data.getD i 0 + g.data.getD i 0 :=
        zipAdd_getD acc.data g.data i hacc (hg ▸ hacc)
      rw [h2]
      omega

theorem runGrads_noReq (p : ParamState) (gs : List Mtx)
    (h : p.requiresGrad = false) : runGrads p gs = p := by
  induction gs with
  | nil => rfl
  | cons g gs ih =>
      show (g :: gs).foldl propagateGrad p = p
      rw [List.foldl_cons, show propagateGrad p g = p by simp [propagateGrad, h]]
      exact ih

theorem runGrads_some (p : ParamState) (h : p.requiresGrad = true) (gs : List Mtx) :
    ∀ gr, p.grad = some gr →
      runGrads p gs
        = { p with grad := some (gs.foldl addM gr),
                   hasGrad := p.hasGrad || !gs.isEmpty } := by
  induction gs generalizing p with
  | nil =>
      intro gr hg
      show p = _
      simp only [List.foldl_nil, List.isEmpty_nil, Bool.not_true, Bool.or_false]
      rw [← hg]
  | cons g gs ih =>
      intro gr hg
      have hstep : propagateGrad p g
          = { p with grad := some (addM gr g), hasGrad := true } := by
        simp [propagateGrad, h, hg]
      have h1 : (propagateGrad p g).requiresGrad = true := by rw [hstep]; exact h
      show runGrads (propagateGrad p g) gs = _
      rw [ih (propagateGrad p g) h1 (addM gr g) (by rw [hstep])]
      rw [hstep]
      simp

theorem runGrads_none (p : ParamState) (h : p.requiresGrad = true)
    (hg : p.grad = none) (gs : List Mtx) :
    runGrads p gs
      = if gs.isEmpty then p
        else { p with grad := some (gs.foldl addM (zerosLike p.value)),
                      hasGrad := true } := by
  cases gs with
  | nil => rfl
  | cons g gs =>
      have hstep : propagateGrad p g
          = { p with grad := some (addM (zerosLike p.value) g), hasGrad := true } := by
        simp [propagateGrad, h, hg]
      have h1 : (propagateGrad p g).requiresGrad = true := by rw [hstep]; exact h
      show runGrads (propagateGrad p g) gs = _
      rw [runGrads_some (propagateGrad p g) h1 gs (addM (zerosLike p.value) g)
        (by rw [hstep])]
      rw [hstep]
      simp

theorem replicate_getD_zero (n i : Nat) : (List.replicate n (0 : Int)).getD i 0 = 0 := by
  induction n generalizing i with
  | zero => simp
  | succ m ih =>
      cases i with
      | zero => simp
      | succ j =>
          rw [List.replicate_succ, List.getD_cons_succ]
          exact ih j

/-- C4: PropagateGrad is a no-op (the whole state is untouched, so an
absent Gradient stays absent) when requiresGrad is false; otherwise the
first call allocates a zero workspace of the dimensions of the Value,
every call adds its argument in place, the accumulated Gradient after
calls with g1, ..., gk has the dimensions of the Value and each entry is
the sum of the corresponding entries of g1, ..., gk, and the result is
invariant under any reordering of the calls. -/
theorem c4_propagateGrad (p : ParamState) (gs : List Mtx) :
    (p.requiresGrad = false → runGrads p gs = p) ∧
    (p.requiresGrad = true → p.grad = none → gs ≠ [] →
      ∃ S, (runGrads p gs).grad = some S ∧
        S.rows = p.value.rows ∧ S.cols = p.value.cols ∧
        ((∀ g ∈ gs, g.data.length = p.value.rows * p.value.cols) →
          ∀ i, i < p.value.rows * p.value.cols →
            S.data.getD i 0 = (gs.map (fun g => g.data.getD i 0)).sum) ∧
        (runGrads p gs).hasGrad = true) ∧
    (p.requiresGrad = true → p.grad = none → gs = [] →
      (runGrads p gs).grad = none) ∧
    (∀ gs1, gs.Perm gs1 → runGrads p gs = runGrads p gs1) := by
  refine ⟨fun h => runGrads_noReq p gs h, ?_, ?_, ?_⟩
  · intro h hg hne
    have hemp : gs.isEmpty = false := by
      cases gs with
      | nil => exact absurd rfl hne
      | cons a l => rfl
    rw [runGrads_none p h hg gs, hemp]
    refine ⟨gs.foldl addM (zerosLike p.value), rfl,
      (foldl_addM_dims gs (zerosLike p.value)).1,
      (foldl_addM_dims gs (zerosLike p.value)).2, ?_, by simp [hemp]⟩
    intro hlen i hi
    have hz : (zerosLike p.value).data.length = p.value.rows * p.value.cols := by
      simp [zerosLike]
    rw [foldl_addM_getD gs (zerosLike p.value) i (by rw [hz]; exact hi)
      (fun g hgm => (hlen g hgm).trans hz.symm)]
    simp [zerosLike, replicate_getD_zero]
  · intro h hg he
    rw [he]
    show p.grad = none
    exact hg
  · intro gs1 hperm
    by_cases h : p.requiresGrad = true
    · cases hg : p.grad with
      | none =>
          rw [runGrads_none p h hg gs, runGrads_none p h hg gs1,
            foldl_addM_perm hperm (zerosLike p.value),
            show gs.isEmpty = gs1.isEmpty by
              cases gs with
              | nil => cases gs1 with
                | nil => rfl
                | cons b l1 => exact absurd hperm.symm (by simp)
              | cons a l => cases gs1 with
                | nil => exact absurd hperm (by simp)
                | cons b l1 => rfl]
      | some gr =>
          rw [runGrads_some p h gs gr hg, runGrads_some p h gs1 gr hg,
            foldl_addM_perm hperm gr,
            show gs.isEmpty = gs1.isEmpty by
              cases gs with
              | nil => cases gs1 with
                | nil => rfl
                | cons b l1 => exact absurd hperm.symm (by simp)
              | cons a l => cases gs1 with
                | nil => exact absurd hperm (by simp)
                | cons b l1 => rfl]
    · have hf : p.requiresGrad = false := by simpa using h
      rw [runGrads_noReq p gs hf, runGrads_noReq p gs1 hf]

/-- Concrete param and gradient list for the C4 witness. -/
def pC4 : ParamState := NewParam { rows := 1, cols := 2, data := [10, 20] }

/-- Two gradient contributions of matching dimensions. -/
def gsC4 : List Mtx :=
  [{ rows := 1, cols := 2, data := [1, 2] }, { rows := 1, cols := 2, data := [3, 4] }]

/-- C4 witness. -/
theorem c4_propagateGrad_witness :
    pC4.requiresGrad = true ∧ pC4.grad = none ∧ gsC4 ≠ [] ∧
    ∃ S, (runGrads pC4 gsC4).grad = some S ∧
      S.rows = pC4.value.rows ∧ S.cols = pC4.value.cols ∧
      ((∀ g ∈ gsC4, g.data.length = pC4.value.rows * pC4.value.cols) →
        ∀ i, i < pC4.value.rows * pC4.value.cols →
          S.data.getD i 0 = (gsC4.map (fun g => g.data.getD i 0)).sum) ∧
      (runGrads pC4 gsC4).hasGrad = true :=
  ⟨rfl, rfl, by decide,
   (c4_propagateGrad pC4 gsC4).2.1 rfl rfl (by decide)⟩

/-! ## Embedding-store lemmas -/

theorem alookup_mem {α : Type} {k : String} {x : α} {l : List (String × α)}
    (h : alookup k l = some x) : (k, x) ∈ l := by
  induction l with
  | nil => simp [alookup] at h
  | cons e rest ih =>
      obtain ⟨k1, v1⟩ := e
      by_cases hk : k1 = k
      · simp only [alookup, if_pos hk] at h
        rw [hk, show v1 = x from by injection h]
        exact List.mem_cons_self _ _
      · simp only [alookup, if_neg hk] at h
        exact List.mem_cons_of_mem _ (ih h)

theorem getEmbeddingStep_cacheHit {m : EmbModel} {w : String} {p : ParamState}
    (h : alookup w m.used = some p) : getEmbeddingStep m w = some (some p, m) := by
  unfold getEmbeddingStep
  rw [h]

theorem getEmbeddingStep_miss {m : EmbModel} {w : String}
    (hc : alookup w m.used = none) (hs : alookup w m.storage = none) :
    getEmbeddingStep m w = some (none, m) := by
  unfold getEmbeddingStep
  rw [hc, hs]

theorem getEmbeddingStep_materialize {m : EmbModel} {w : String} {bs : List Tok}
    {v : Mtx} {pl : Payload} {rest : List Tok}
    (hc : alookup w m.used = none)
    (hs : alookup w m.storage = some bs)
    (hd : paramDeserialize bs = some (v, pl, rest)) :
    getEmbeddingStep m w
      = some (some (matParam m w v pl),
          { m with used := (w, matParam m w v pl) :: m.used }) := by
  unfold getEmbeddingStep
  simp only [hc, hs, hd]

theorem getEmbedding_ofHit {m : EmbModel} {w : String} {p : ParamState}
    {m1 : EmbModel} (h : getEmbeddingStep m w = some (some p, m1)) :
    getEmbedding m w = some (some p, m1) := by
  unfold getEmbedding
  rw [h]

theorem getEmbedding_ofMiss {m : EmbModel} {w : String}
    (h : getEmbeddingStep m w = some (none, m)) :
    getEmbedding m w = getEmbeddingStep m (lowerStr w) := by
  unfold getEmbedding
  rw [h]

theorem setEmbedding_eq (m : EmbModel) (w : String) (v : Mtx)
    (hro : m.readOnly = false) :
    setEmbedding m w v
      = some { m with storage := (w, freshBytes v) :: m.storage } := by
  unfold setEmbedding
  rw [hro]
  simp only [Bool.false_eq_true, if_false]
  have hser : paramSerialize ({ NewParam v with payload := some emptySupport
    } : ParamState).value ({ NewParam v with payload := some emptySupport
    } : ParamState).payload = some (freshBytes v) := paramSerialize_empty v
  rw [hser]

/-! ## C6 -/

/-- C6: on a read-only store every SetEmbedding call fails fatally, and
every Parameter materialized from the backing store by a lookup has
gradient tracking forced off. -/
theorem c6_readOnly (m : EmbModel) (hro : m.readOnly = true) :
    (∀ w v, setEmbedding m w v = none) ∧
    (∀ w p m1, alookup w m.used = none →
      getEmbeddingStep m w = some (some p, m1) → p.requiresGrad = false) := by
  constructor
  · intro w v
    unfold setEmbedding
    rw [hro]
    rfl
  · intro w p m1 hc hs
    unfold getEmbeddingStep at hs
    rw [hc] at hs
    cases hst : alookup w m.storage with
    | none => rw [hst] at hs; simp at hs
    | some bs =>
        simp only [hst] at hs
        cases hd : paramDeserialize bs with
        | none => simp only [hd] at hs; exact absurd hs (by simp)
        | some trip =>
            obtain ⟨v1, pl1, rest1⟩ := trip
            simp only [hd, Option.some.injEq, Prod.mk.injEq] at hs
            rw [← hs.1]
            simp [matParam, hro]

/-- A read-only model holding one serialized embedding. -/
def mC6 : EmbModel :=
  { readOnly := true, useZero := false,
    storage := [("w", freshBytes { rows := 1, cols := 2, data := [4, 2] })],
    used := [] }

/-- The Param mC6 materializes for the word w. -/
def pC6 : ParamState :=
  matParam mC6 "w" { rows := 1, cols := 2, data := [4, 2] } emptySupport

/-- C6 witness. -/
theorem c6_readOnly_witness :
    setEmbedding mC6 "w" { rows := 1, cols := 1, data := [0] } = none ∧
    pC6.requiresGrad = false :=
  ⟨(c6_readOnly mC6 rfl).1 "w" { rows := 1, cols := 1, data := [0] },
   (c6_readOnly mC6 rfl).2 "w" pC6 { mC6 with used := [("w", pC6)] } rfl
     (getEmbeddingStep_materialize rfl rfl
       (paramDeserialize_freshBytes { rows := 1, cols := 2, data := [4, 2] }
         (by decide)))⟩

/-! ## C10 -/

/-- C10: SetEmbedding writes only to the backing store: the working set
is untouched, so a word already cached keeps returning the previously
cached Parameter from GetEmbedding; only after ClearUsedEmbeddings does a
lookup re-materialize the newly set value from storage. -/
theorem c10_setEmbedding_frame (m : EmbModel) (w : String) (v : Mtx)
    (hro : m.readOnly = false) (hv : v.WF) :
    ∃ m1, setEmbedding m w v = some m1 ∧
      m1.used = m.used ∧ m1.readOnly = m.readOnly ∧
      (∀ p, alookup w m.used = some p → getEmbedding m1 w = some (some p, m1)) ∧
      (∃ q m2, getEmbeddingStep (clearUsedEmbeddings m1) w = some (some q, m2) ∧
        q.value = v) := by
  refine ⟨_, setEmbedding_eq m w v hro, rfl, rfl, ?_, ?_⟩
  · intro p hp
    exact getEmbedding_ofHit (getEmbeddingStep_cacheHit hp)
  · refine ⟨_, _, getEmbeddingStep_materialize rfl ?_
      (paramDeserialize_freshBytes v hv), rfl⟩
    show alookup w ((w, freshBytes v) :: m.storage) = some (freshBytes v)
    simp [alookup]

/-- A model whose working set caches a stale Param for the word w. -/
def mC10 : EmbModel :=
  { readOnly := false, useZero := false,
    storage := [("w", freshBytes { rows := 1, cols := 1, data := [1] })],
    used := [("w", matParam
      { readOnly := false, useZero := false,
        storage := [("w", freshBytes { rows := 1, cols := 1, data := [1] })],
        used := [] } "w" { rows := 1, cols := 1, data := [1] } emptySupport)] }

/-- The freshly set value in the C10 witness. -/
def vC10 : Mtx := { rows := 1, cols := 1, data := [9] }

/-- C10 witness. -/
theorem c10_setEmbedding_frame_witness :
    ∃ m1, setEmbedding mC10 "w" vC10 = some m1 ∧
      m1.used = mC10.used ∧ m1.readOnly = mC10.readOnly ∧
      (∀ p, alookup "w" mC10.used = some p →
        getEmbedding m1 "w" = some (some p, m1)) ∧
      (∃ q m2, getEmbeddingStep (clearUsedEmbeddings m1) "w" = some (some q, m2) ∧
        q.value = vC10) :=
  c10_setEmbedding_frame mC10 "w" vC10 rfl (by decide)

/-! ## C5: trace invariant and lookup characterization -/

/-- Every backing-store entry is the fresh serialization of a well-formed
value that some SetEmbedding of the trace wrote. -/
def StorageOK (ops : List EmbOp) (st : List (String × List Tok)) : Prop :=
  ∀ e ∈ st, ∃ v, v.WF ∧ e.2 = freshBytes v ∧ EmbOp.set e.1 v ∈ ops

/-- Every cached Param holds a value some SetEmbedding of the trace wrote
for its word. -/
def UsedOK (ops : List EmbOp) (us : List (String × ParamState)) : Prop :=
  ∀ e ∈ us, EmbOp.set e.1 e.2.value ∈ ops

/-- Reachability invariant of a writable embeddings Model. -/
def EmbInv (ops : List EmbOp) (m : EmbModel) : Prop :=
  m.readOnly = false ∧ StorageOK ops m.storage ∧ UsedOK ops m.used ∧
    ∀ w, wasSet ops w → alookup w m.storage ≠ none

theorem embStep_char (ops : List EmbOp) (m : EmbModel) (w : String)
    (hInv : EmbInv ops m) :
    ∃ res m1, getEmbeddingStep m w = some (res, m1) ∧ EmbInv ops m1 ∧
      m1.storage = m.storage ∧
      (res = none → m1 = m) ∧
      (res = none ↔ ¬ wasSet ops w) ∧
      (∀ p, res = some p → EmbOp.set w p.value ∈ ops) := by
  obtain ⟨hro, hst, hus, hcov⟩ := hInv
  cases hc : alookup w m.used with
  | some p =>
      refine ⟨some p, m, getEmbeddingStep_cacheHit hc, ⟨hro, hst, hus, hcov⟩,
        rfl, by simp, ?_, ?_⟩
      · constructor
        · intro hh; exact absurd hh (by simp)
        · intro hn; exact absurd ⟨p.value, hus _ (alookup_mem hc)⟩ hn
      · intro q hq
        rw [show q = p from (Option.some.inj hq).symm]
        exact hus _ (alookup_mem hc)
  | none =>
      cases hsl : alookup w m.storage with
      | none =>
          refine ⟨none, m, getEmbeddingStep_miss hc hsl, ⟨hro, hst, hus, hcov⟩,
            rfl, fun _ => rfl, ?_, by simp⟩
          constructor
          · intro _ hws
            exact (hcov w hws) hsl
          · intro _
            rfl
      | some bs =>
          obtain ⟨v, hvWF, hbs, hset⟩ := hst (w, bs) (alookup_mem hsl)
          have hd : paramDeserialize bs = some (v, emptySupport, []) := by
            rw [show bs = freshBytes v from hbs]
            exact paramDeserialize_freshBytes v hvWF
          refine ⟨some (matParam m w v emptySupport), _,
            getEmbeddingStep_materialize hc hsl hd, ?_, rfl, by simp, ?_, ?_⟩
          · refine ⟨hro, hst, ?_, hcov⟩
            intro e he
            cases List.mem_cons.mp he with
            | inl hh => rw [hh]; exact hset
            | inr hh => exact hus e hh
          · constructor
            · intro hh; exact absurd hh (by simp)
            · intro hn; exact absurd ⟨v, hset⟩ hn
          · intro q hq
            rw [show q = matParam m w v emptySupport from (Option.some.inj hq).symm]
            exact hset

theorem getEmbedding_preserves (ops : List EmbOp) (m : EmbModel) (w : String)
    (res : Option ParamState) (m2 : EmbModel) (hInv : EmbInv ops m)
    (h : getEmbedding m w = some (res, m2)) : EmbInv ops m2 := by
  obtain ⟨r1, mA, hstep1, hinvA, _, hnone1, _, _⟩ := embStep_char ops m w hInv
  unfold getEmbedding at h
  simp only [hstep1] at h
  cases r1 with
  | some p =>
      have h3 : (some (some p, mA) : Option (Option ParamState × EmbModel))
          = some (res, m2) := h
      have hmm : m2 = mA := congrArg Prod.snd (Option.some.inj h3).symm
      rw [hmm]
      exact hinvA
  | none =>
      rw [hnone1 rfl] at h
      have h3 : getEmbeddingStep m (lowerStr w) = some (res, m2) := h
      obtain ⟨r2, mB, hstep2, hinvB, _, _, _, _⟩ := embStep_char ops m (lowerStr w) hInv
      rw [hstep2] at h3
      have hmm : m2 = mB := congrArg Prod.snd (Option.some.inj h3).symm
      rw [hmm]
      exact hinvB

theorem runEmb_append (l1 l2 : List EmbOp) (m : EmbModel) :
    runEmb m (l1 ++ l2)
      = match runEmb m l1 with
        | none => none
        | some m1 => runEmb m1 l2 := by
  induction l1 generalizing m with
  | nil => rfl
  | cons op l ih =>
      simp only [List.cons_append, runEmb]
      cases ha : applyEmbOp m op with
      | none => rfl
      | some m1 => exact ih m1

theorem wasSet_append_set (l : List EmbOp) (w w1 : String) (v : Mtx) :
    wasSet (l ++ [EmbOp.set w v]) w1 ↔ wasSet l w1 ∨ w1 = w := by
  constructor
  · intro ⟨v1, hm⟩
    cases List.mem_append.mp hm with
    | inl hh => exact Or.inl ⟨v1, hh⟩
    | inr hh =>
        have heq := List.mem_singleton.mp hh
        simp only [EmbOp.set.injEq] at heq
        exact Or.inr heq.1
  · intro hh
    cases hh with
    | inl h1 => obtain ⟨v1, hm⟩ := h1; exact ⟨v1, List.mem_append_left _ hm⟩
    | inr h1 => exact ⟨v, by rw [h1]; exact List.mem_append_right _ (List.mem_singleton.mpr rfl)⟩

theorem wasSet_append_get (l : List EmbOp) (w w1 : String) :
    wasSet (l ++ [EmbOp.get w]) w1 ↔ wasSet l w1 := by
  constructor
  · intro ⟨v1, hm⟩
    cases List.mem_append.mp hm with
    | inl hh => exact ⟨v1, hh⟩
    | inr hh => exact absurd (List.mem_singleton.mp hh) (by simp)
  · intro ⟨v1, hm⟩
    exact ⟨v1, List.mem_append_left _ hm⟩

theorem wasSet_append_clear (l : List EmbOp) (w1 : String) :
    wasSet (l ++ [EmbOp.clear]) w1 ↔ wasSet l w1 := by
  constructor
  · intro ⟨v1, hm⟩
    cases List.mem_append.mp hm with
    | inl hh => exact ⟨v1, hh⟩
    | inr hh => exact absurd (List.mem_singleton.mp hh) (by simp)
  · intro ⟨v1, hm⟩
    exact ⟨v1, List.mem_append_left _ hm⟩

theorem embInv_mono {ops ops1 : List EmbOp} {m : EmbModel}
    (hsub : ∀ x ∈ ops, x ∈ ops1)
    (hsets : ∀ w, wasSet ops1 w → wasSet ops w)
    (h : EmbInv ops m) : EmbInv ops1 m := by
  obtain ⟨hro, hst, hus, hcov⟩ := h
  refine ⟨hro, ?_, ?_, ?_⟩
  · intro e he
    obtain ⟨v, h1, h2, h3⟩ := hst e he
    exact ⟨v, h1, h2, hsub _ h3⟩
  · intro e he
    exact hsub _ (hus e he)
  · intro w hws
    exact hcov w (hsets w hws)

theorem embInv_run (uz : Bool) (ops : List EmbOp)
    (hWF : ∀ w v, EmbOp.set w v ∈ ops → v.WF) :
    ∀ m, runEmb (newEmbModel false uz) ops = some m → EmbInv ops m := by
  induction ops using List.reverseRecOn with
  | nil =>
      intro m h
      simp only [runEmb, Option.some.injEq] at h
      rw [← h]
      refine ⟨rfl, ?_, ?_, ?_⟩
      · intro e he; simp [newEmbModel] at he
      · intro e he; simp [newEmbModel] at he
      · intro w hws
        obtain ⟨v, hv⟩ := hws
        simp at hv
  | append_singleton l op ih =>
      intro m h
      rw [runEmb_append] at h
      cases hr : runEmb (newEmbModel false uz) l with
      | none => rw [hr] at h; simp at h
      | some m1 =>
          rw [hr] at h
          have hWFl : ∀ w v, EmbOp.set w v ∈ l → v.WF :=
            fun w v hm => hWF w v (List.mem_append_left _ hm)
          have hInv1 := ih hWFl m1 hr
          simp only [runEmb] at h
          cases ha : applyEmbOp m1 op with
          | none => rw [ha] at h; simp at h
          | some m2 =>
              rw [ha] at h
              have hm2 : m2 = m := by
                simpa [runEmb] using h
              rw [← hm2]
              clear h hm2
              cases op with
              | set w v =>
                  have hvWF : v.WF :=
                    hWF w v (List.mem_append_right _ (List.mem_singleton.mpr rfl))
                  have hset := setEmbedding_eq m1 w v hInv1.1
                  simp only [applyEmbOp] at ha
                  rw [hset] at ha
                  have hm2 : m2 = { m1 with storage := (w, freshBytes v) :: m1.storage } :=
                    (Option.some.inj ha).symm
                  rw [hm2]
                  obtain ⟨hro, hst, hus, hcov⟩ := hInv1
                  refine ⟨hro, ?_, ?_, ?_⟩
                  · intro e he
                    cases List.mem_cons.mp he with
                    | inl hh =>
                        rw [hh]
                        exact ⟨v, hvWF, rfl,
                          List.mem_append_right _ (List.mem_singleton.mpr rfl)⟩
                    | inr hh =>
                        obtain ⟨v1, h1, h2, h3⟩ := hst e hh
                        exact ⟨v1, h1, h2, List.mem_append_left _ h3⟩
                  · intro e he
                    exact List.mem_append_left _ (hus e he)
                  · intro w1 hws
                    cases (wasSet_append_set l w w1 v).mp hws with
                    | inr hh =>
                        show alookup w1 ((w, freshBytes v) :: m1.storage) ≠ none
                        unfold alookup
                        rw [if_pos hh.symm]
                        simp
                    | inl hh =>
                        show alookup w1 ((w, freshBytes v) :: m1.storage) ≠ none
                        unfold alookup
                        by_cases hww : w = w1
                        · rw [if_pos hww]; simp
                        · rw [if_neg hww]
                          exact hcov w1 hh
              | get w =>
                  simp only [applyEmbOp] at ha
                  cases hg : getEmbedding m1 w with
                  | none => rw [hg] at ha; simp at ha
                  | some pr =>
                      obtain ⟨res, mg⟩ := pr
                      rw [hg] at ha
                      have hm2 : m2 = mg := (Option.some.inj ha).symm
                      rw [hm2]
                      have hinvg := getEmbedding_preserves l m1 w res mg hInv1 hg
                      exact embInv_mono
                        (fun x hx => List.mem_append_left _ hx)
                        (fun w1 hw1 => (wasSet_append_get l w w1).mp hw1)
                        hinvg
              | clear =>
                  simp only [applyEmbOp] at ha
                  have hm2 : m2 = clearUsedEmbeddings m1 := (Option.some.inj ha).symm
                  rw [hm2]
                  obtain ⟨hro, hst, hus, hcov⟩ := hInv1
                  refine embInv_mono
                    (fun x hx => List.mem_append_left _ hx)
                    (fun w1 hw1 => (wasSet_append_clear l w1).mp hw1)
                    ⟨hro, hst, ?_, hcov⟩
                  intro e he
                  simp [clearUsedEmbeddings] at he

/-- C5: after any fatal-free writable history, GetEmbedding(w) consults
the working set first (a cached Param is returned as-is with no state
change); it returns not-found exactly when no SetEmbedding of the history
wrote w or lower-cased w, and any found Param holds a value that a
SetEmbedding of the history wrote for w or for lower-cased w. -/
theorem c5_getEmbedding (uz : Bool) (ops : List EmbOp) (m : EmbModel) (w : String)
    (hWF : ∀ w1 v, EmbOp.set w1 v ∈ ops → v.WF)
    (hrun : runEmb (newEmbModel false uz) ops = some m) :
    (∀ p, alookup w m.used = some p → getEmbedding m w = some (some p, m)) ∧
    ∃ res m1, getEmbedding m w = some (res, m1) ∧
      (res = none ↔ ¬ wasSet ops w ∧ ¬ wasSet ops (lowerStr w)) ∧
      (∀ p, res = some p →
        EmbOp.set w p.value ∈ ops ∨ EmbOp.set (lowerStr w) p.value ∈ ops) := by
  have hInv := embInv_run uz ops hWF m hrun
  constructor
  · intro p hp
    exact getEmbedding_ofHit (getEmbeddingStep_cacheHit hp)
  · obtain ⟨r1, mA, hstep1, _, _, hnone1, hiff1, hval1⟩ := embStep_char ops m w hInv
    cases r1 with
    | some p =>
        refine ⟨some p, mA, getEmbedding_ofHit hstep1, ?_, ?_⟩
        · constructor
          · intro hh; exact absurd hh (by simp)
          · intro hn; exact absurd (hiff1.mpr hn.1) (by simp)
        · intro q hq
          left
          rw [show q = p from (Option.some.inj hq).symm]
          exact hval1 p rfl
    | none =>
        have hmA : mA = m := hnone1 rfl
        rw [hmA] at hstep1
        obtain ⟨r2, mB, hstep2, _, _, _, hiff2, hval2⟩ :=
          embStep_char ops m (lowerStr w) hInv
        have hg : getEmbedding m w = some (r2, mB) := by
          rw [getEmbedding_ofMiss hstep1, hstep2]
        refine ⟨r2, mB, hg, ?_, ?_⟩
        · constructor
          · intro h2
            exact ⟨hiff1.mp rfl, hiff2.mp h2⟩
          · intro hn
            exact hiff2.mpr hn.2
        · intro q hq
          right
          exact hval2 q hq

/-- The value stored for Paris in the C5 witness. -/
def vParis : Mtx := { rows := 1, cols := 1, data := [11] }

/-- The value stored for paris (lower case) in the C5 witness. -/
def vparis2 : Mtx := { rows := 1, cols := 1, data := [22] }

/-- The C5 witness history. -/
def opsC5 : List EmbOp := [EmbOp.set "Paris" vParis, EmbOp.set "paris" vparis2]

/-- The model the C5 witness history produces. -/
def mC5 : EmbModel :=
  { readOnly := false, useZero := false,
    storage := [("paris", freshBytes vparis2), ("Paris", freshBytes vParis)],
    used := [] }

/-- C5 witness. -/
theorem c5_getEmbedding_witness :
    (∀ p, alookup "Paris" mC5.used = some p →
      getEmbedding mC5 "Paris" = some (some p, mC5)) ∧
    ∃ res m1, getEmbedding mC5 "Paris" = some (res, m1) ∧
      (res = none ↔ ¬ wasSet opsC5 "Paris" ∧ ¬ wasSet opsC5 (lowerStr "Paris")) ∧
      (∀ p, res = some p →
        EmbOp.set "Paris" p.value ∈ opsC5 ∨
          EmbOp.set (lowerStr "Paris") p.value ∈ opsC5) :=
  c5_getEmbedding false opsC5 mC5 "Paris"
    (by
      intro w1 v h
      simp only [opsC5, List.mem_cons, List.not_mem_nil, or_false,
        EmbOp.set.injEq] at h
      rcases h with ⟨_, hv⟩ | ⟨_, hv⟩ <;> rw [hv] <;> decide)
    (by decide)

/-! ## C7: Encode -/

/-- Every backing-store entry deserializes cleanly (no fatal lookup). -/
def StorageWFAll (m : EmbModel) : Prop :=
  ∀ e ∈ m.storage, ∃ r, paramDeserialize e.2 = some r

theorem embStep_total (m : EmbModel) (w : String) (h : StorageWFAll m) :
    ∃ res m1, getEmbeddingStep m w = some (res, m1) ∧ m1.storage = m.storage ∧
      (res = none → m1 = m) := by
  cases hc : alookup w m.used with
  | some p => exact ⟨some p, m, getEmbeddingStep_cacheHit hc, rfl, by simp⟩
  | none =>
      cases hsl : alookup w m.storage with
      | none => exact ⟨none, m, getEmbeddingStep_miss hc hsl, rfl, fun _ => rfl⟩
      | some bs =>
          obtain ⟨⟨v, pl, rest⟩, hd⟩ := h (w, bs) (alookup_mem hsl)
          exact ⟨some (matParam m w v pl), _,
            getEmbeddingStep_materialize hc hsl hd, rfl, by simp⟩

theorem getEmbedding_total (m : EmbModel) (w : String) (h : StorageWFAll m) :
    ∃ res m1, getEmbedding m w = some (res, m1) ∧ m1.storage = m.storage := by
  obtain ⟨r1, mA, h1, hs1, hn1⟩ := embStep_total m w h
  cases r1 with
  | some p => exact ⟨some p, mA, getEmbedding_ofHit h1, hs1⟩
  | none =>
      rw [hn1 rfl] at h1
      obtain ⟨r2, mB, h2, hs2, _⟩ := embStep_total m (lowerStr w) h
      exact ⟨r2, mB, by rw [getEmbedding_ofMiss h1, h2], hs2⟩

theorem procGetEmbedding_total (m : EmbModel) (g : Nat) (ze : Option Nat)
    (w : String) (h : StorageWFAll m) :
    ∃ nd m1 g1, procGetEmbedding m g ze w = some (nd, m1, g1) ∧
      m1.storage = m.storage ∧ g ≤ g1 ∧ g1 ≤ g + 1 := by
  obtain ⟨res, mA, hg, hst⟩ := getEmbedding_total m w h
  cases res with
  | none =>
      exact ⟨ze, mA, g, by unfold procGetEmbedding; rw [hg], hst,
        Nat.le_refl g, by omega⟩
  | some p =>
      exact ⟨some g, mA, g + 1, by unfold procGetEmbedding; rw [hg], hst,
        by omega, Nat.le_refl (g + 1)⟩

/-- The words of a per-call cache, as a finite set. -/
def cacheKeys (cache : List (String × Option Nat)) : Finset String :=
  (cache.map Prod.fst).toFinset

theorem mem_keys_lookup {α : Type} {k : String} {l : List (String × α)}
    (h : k ∈ l.map Prod.fst) : ∃ x, alookup k l = some x := by
  induction l with
  | nil => simp at h
  | cons e rest ih =>
      obtain ⟨k1, v1⟩ := e
      by_cases hk : k1 = k
      · exact ⟨v1, by simp [alookup, hk]⟩
      · have hmem : k ∈ rest.map Prod.fst := by
          simp only [List.map_cons, List.mem_cons] at h
          cases h with
          | inl hh => exact absurd hh.symm hk
          | inr hh => exact hh
        obtain ⟨x, hx⟩ := ih hmem
        exact ⟨x, by simp only [alookup, if_neg hk]; exact hx⟩

theorem encodeAux_spec (words : List String) :
    ∀ (m : EmbModel) (g : Nat) (ze : Option Nat)
      (cache : List (String × Option Nat)),
    StorageWFAll m →
    ∃ enc m1 g1 c1 cnt,
      encodeAux m g ze cache words = some (enc, m1, g1, c1, cnt) ∧
      enc.length = words.length ∧
      StorageWFAll m1 ∧
      (∀ w nd, alookup w cache = some nd → alookup w c1 = some nd) ∧
      (∀ (i : Nat) w, words[i]? = some w →
        ∃ nd, alookup w c1 = some nd ∧ enc[i]? = some nd) ∧
      cnt = (words.toFinset \ cacheKeys cache).card ∧
      g1 ≤ g + cnt := by
  induction words with
  | nil =>
      intro m g ze cache hm
      refine ⟨[], m, g, cache, 0, rfl, rfl, hm, fun w nd h => h, ?_, ?_,
        Nat.le_refl g⟩
      · intro i w hi
        simp at hi
      · simp [cacheKeys]
  | cons w ws ih =>
      intro m g ze cache hm
      cases hcl : alookup w cache with
      | some item =>
          obtain ⟨enc, m1, g1, c1, cnt, henc, hlen, hwf1, hpres, hidx, hcnt, hg⟩ :=
            ih m g ze cache hm
          refine ⟨item :: enc, m1, g1, c1, cnt, ?_, ?_, hwf1, hpres, ?_, ?_, hg⟩
          · simp only [encodeAux, hcl, henc]
          · simp [hlen]
          · intro i w1 hi
            cases i with
            | zero =>
                have hw1 : w = w1 := Option.some.inj (by simpa using hi)
                refine ⟨item, ?_, by simp⟩
                rw [← hw1]
                exact hpres w item hcl
            | succ j =>
                obtain ⟨nd, h1, h2⟩ := hidx j w1 (by simpa using hi)
                exact ⟨nd, h1, by simpa using h2⟩
          · have hwk : w ∈ cacheKeys cache := by
              unfold cacheKeys
              refine List.mem_toFinset.mpr ?_
              have := alookup_mem hcl
              exact List.mem_map.mpr ⟨(w, item), this, rfl⟩
            rw [hcnt, List.toFinset_cons, Finset.insert_sdiff_of_mem _ hwk]
      | none =>
          obtain ⟨nd, mG, gG, hproc, hstG, hgl, hgu⟩ :=
            procGetEmbedding_total m g ze w hm
          have hmG : StorageWFAll mG := by
            intro e he
            exact hm e (hstG ▸ he)
          obtain ⟨enc, m1, g1, c1, cnt, henc, hlen, hwf1, hpres, hidx, hcnt, hg⟩ :=
            ih mG gG ze ((w, nd) :: cache) hmG
          have hwk : w ∉ cacheKeys cache := by
            intro hmem
            obtain ⟨x, hx⟩ := mem_keys_lookup (List.mem_toFinset.mp hmem)
            rw [hcl] at hx
            exact Option.noConfusion hx
          refine ⟨nd :: enc, m1, g1, c1, cnt + 1, ?_, ?_, hwf1, ?_, ?_, ?_, ?_⟩
          · simp only [encodeAux, hcl, hproc, henc]
          · simp [hlen]
          · intro w1 nd1 h1
            apply hpres
            unfold alookup
            by_cases hww : w = w1
            · rw [hww] at hcl
              rw [hcl] at h1
              exact Option.noConfusion h1
            · rw [if_neg hww]
              exact h1
          · intro i w1 hi
            cases i with
            | zero =>
                have hw1 : w = w1 := Option.some.inj (by simpa using hi)
                refine ⟨nd, ?_, by simp⟩
                rw [← hw1]
                apply hpres
                unfold alookup
                rw [if_pos rfl]
            | succ j =>
                obtain ⟨nd1, h1, h2⟩ := hidx j w1 (by simpa using hi)
                exact ⟨nd1, h1, by simpa using h2⟩
          · rw [hcnt]
            have hkeys : cacheKeys ((w, nd) :: cache) = insert w (cacheKeys cache) := by
              simp [cacheKeys]
            rw [hkeys, List.toFinset_cons]
            have hset : insert w ws.toFinset \ cacheKeys cache
                = insert w (ws.toFinset \ insert w (cacheKeys cache)) := by
              ext x
              simp only [Finset.mem_insert, Finset.mem_sdiff]
              constructor
              · rintro ⟨hx | hx, hnk⟩
                · exact Or.inl hx
                · by_cases hxw : x = w
                  · exact Or.inl hxw
                  · exact Or.inr ⟨hx, by simp [hxw, hnk]⟩
              · rintro (hx | ⟨hx, hnk⟩)
                · exact ⟨Or.inl hx, by rw [hx]; exact hwk⟩
                · exact ⟨Or.inr hx, fun hc => hnk (Or.inr hc)⟩
            rw [hset, Finset.card_insert_of_not_mem (by simp)]
          · omega

/-- C7: within one Encode call over any cleanly deserializing model, the
result has exactly one node per input position, two positions holding the
same word string are assigned the identical node, the number of
underlying embedding lookups equals the number of distinct words of the
call, and at most that many fresh graph wraps are created. -/
theorem c7_encode (m : EmbModel) (g : Nat) (ze : Option Nat)
    (words : List String) (hm : StorageWFAll m) :
    ∃ enc m1 g1 c1 cnt, encode m g ze words = some (enc, m1, g1, c1, cnt) ∧
      enc.length = words.length ∧
      (∀ (i j : Nat) (w : String), words[i]? = some w → words[j]? = some w →
        enc[i]? = enc[j]?) ∧
      cnt = words.toFinset.card ∧
      g1 ≤ g + cnt := by
  obtain ⟨enc, m1, g1, c1, cnt, henc, hlen, _, _, hidx, hcnt, hg⟩ :=
    encodeAux_spec words m g ze [] hm
  refine ⟨enc, m1, g1, c1, cnt, henc, hlen, ?_, ?_, hg⟩
  · intro i j w hi hj
    obtain ⟨nd1, hl1, he1⟩ := hidx i w hi
    obtain ⟨nd2, hl2, he2⟩ := hidx j w hj
    rw [he1, he2, Option.some.inj (hl1.symm.trans hl2)]
  · rw [hcnt]
    simp [cacheKeys]

/-- The two stored embeddings of the C7 witness model. -/
def vThe : Mtx := { rows := 1, cols := 1, data := [7] }

/-- The value stored for cat in the C7 witness model. -/
def vCat : Mtx := { rows := 1, cols := 1, data := [8] }

/-- The C7 witness model. -/
def mC7 : EmbModel :=
  { readOnly := false, useZero := false,
    storage := [("the", freshBytes vThe), ("cat", freshBytes vCat)],
    used := [] }

/-- C7 witness: encoding the, the, cat yields three nodes, the two
occurrences of the being the identical node, with exactly two underlying
lookups. -/
theorem c7_encode_witness :
    (∃ enc m1 g1 c1 cnt,
      encode mC7 0 none ["the", "the", "cat"] = some (enc, m1, g1, c1, cnt) ∧
      enc.length = ["the", "the", "cat"].length ∧
      (∀ (i j : Nat) (w : String), ["the", "the", "cat"][i]? = some w →
        ["the", "the", "cat"][j]? = some w → enc[i]? = enc[j]?) ∧
      cnt = (["the", "the", "cat"] : List String).toFinset.card ∧
      g1 ≤ 0 + cnt) ∧
    ((encode mC7 0 none ["the", "the", "cat"]).map
        (fun r => (r.1, r.2.2.1, r.2.2.2.2))
      = some ([some 0, some 0, some 1], 2, 2)) :=
  ⟨c7_encode mC7 0 none ["the", "the", "cat"]
    (by
      intro e he
      simp only [mC7, List.mem_cons, List.not_mem_nil, or_false] at he
      rcases he with he | he <;> rw [he] <;>
        exact ⟨_, paramDeserialize_freshBytes _ (by decide)⟩),
   by decide⟩

end Spago
